import Mathlib

/-!
Verification of the esp-overlay real-time detection pipeline.

Shallow embedding of the Python sources:
* bounded queue overflow discipline (capture.py, processing.py),
* the latched running flag (state.py),
* the YOLO postprocessing chain: confidence filter, class filter,
  box decode / de-letterboxing, NMS, nearest-target selection
  (processing.py),
* the letterbox preprocessing scale and padding (processing.py),
* one tick of the aim-assist loop (aim_assist.py).

Machine floats are modelled as rationals; Python `int()` truncation
toward zero and Python `round()` (banker's rounding) are modelled
explicitly.
-/

/-- Rational division written out on numerators and denominators. It
equals `a / b` (lemma `qdiv_eq_div` below) but, unlike the `Div ℚ`
instance, it evaluates by kernel reduction, which the concrete
scenario proofs need (`Rat.inv` is irreducible). -/
def qdiv (a b : ℚ) : ℚ :=
  Rat.divInt (a.num * b.den) (a.den * b.num)

/-- Rational multiplication written out on numerators and denominators;
equals `a * b` (lemma `qmul_eq_mul`) but evaluates by kernel reduction
(`Rat.mul` is irreducible). -/
def qmul (a b : ℚ) : ℚ :=
  mkRat (a.num * b.num) (a.den * b.den)

/-- Rational addition written out on numerators and denominators;
equals `a + b` (lemma `qadd_eq_add`) but evaluates by kernel reduction
(`Rat.add` is irreducible). -/
def qadd (a b : ℚ) : ℚ :=
  mkRat (a.num * (b.den : ℤ) + b.num * (a.den : ℤ)) (a.den * b.den)

/-- Rational subtraction, via `qadd` and negation; equals `a - b`
(lemma `qsub_eq_sub`). -/
def qsub (a b : ℚ) : ℚ :=
  qadd a (-b)

/-- Python `int(q)`: truncation toward zero of a rational. -/
def pyInt (q : ℚ) : ℤ :=
  if 0 ≤ q then ⌊q⌋ else -⌊-q⌋

/-- Python `round(q)` for a rational with exact-half ties:
round-half-to-even, as CPython's `round` does; away from exact halves
this is rounding to the nearest integer, `⌊q + 1/2⌋`. -/
def pyRound (q : ℚ) : ℤ :=
  if qsub q (⌊q⌋ : ℚ) = mkRat 1 2 then
    (if Even ⌊q⌋ then ⌊q⌋ else ⌊q⌋ + 1)
  else ⌊qadd q (mkRat 1 2)⌋

/-- The clamp of `np.clip(v, lo, hi)` on a single scalar. -/
def npClip (v lo hi : ℚ) : ℚ :=
  max lo (min v hi)

/-! ### Bounded queue overflow discipline

`capture.py` lines 116-127 and `processing.py` lines 332-342: the
producer tries to put; on `queue.Full` it drops the oldest entry with
`get_nowait()` and then inserts the new item with `put_nowait()`.
Sequential model of one push against a `queue.Queue(maxsize = cap)`
whose content is the FIFO list `q` (head = oldest). -/
def qPush {α : Type} (cap : ℕ) (q : List α) (item : α) : List α :=
  if q.length < cap then q ++ [item] else q.drop 1 ++ [item]

/-! ### Latched running flag (state.py)

The `program_running` setter (state.py lines 40-45) runs
`if not value: self._program_running = False` under the state lock, and
`request_shutdown` (lines 77-79) assigns `False` through that setter.
Since every operation holds the single lock, any concurrent interleaving
of callers is some sequence of atomic operations on the stored flag. -/

/-- One atomic operation on the shared running flag. -/
inductive StateOp : Type
  | setRunning (v : Bool)
  | requestShutdown
deriving DecidableEq, Repr

/-- The `program_running` setter logic from state.py: the stored flag is
overwritten with `False` when the assigned value is falsy and left
untouched otherwise; `request_shutdown` assigns `False` through it. -/
def runStep (s : Bool) : StateOp → Bool
  | StateOp.setRunning v => if v then s else false
  | StateOp.requestShutdown => false

/-- A sequence of atomic flag operations applied in order. -/
def runOps (s : Bool) (ops : List StateOp) : Bool :=
  ops.foldl runStep s

/-! ### Postprocessing data model (processing.py, `AIProcessor._postprocess`)

One raw prediction row of the `[num_candidates, 5 + num_classes]`
output tensor: center-form box, objectness (column 4), per-class
scores (columns 5..). -/
structure PredRow : Type where
  cx : ℚ
  cy : ℚ
  w : ℚ
  h : ℚ
  obj : ℚ
  cls : List ℚ
deriving DecidableEq, Repr

/-- The `np.argmax` of a score list: index of the first occurrence of
the maximum (0 on the empty list, where numpy would raise). -/
def argmaxIdx : List ℚ → ℕ
  | [] => 0
  | [_] => 0
  | a :: b :: rest =>
      let j := argmaxIdx (b :: rest)
      if a < (b :: rest).getD j 0 then j + 1 else 0

/-- The `np.max` of a score list (0 on the empty list, where numpy
would raise). -/
def maxScore : List ℚ → ℚ
  | [] => 0
  | [a] => a
  | a :: b :: rest => max a (maxScore (b :: rest))

/-- A candidate surviving the class-filter stage: box, confidence
(column 4, possibly overwritten with the class score), and arg-max
class id. -/
structure Cand : Type where
  cx : ℚ
  cy : ℚ
  w : ℚ
  h : ℚ
  conf : ℚ
  classId : ℕ
deriving DecidableEq, Repr

/-- The class-filter stage (processing.py lines 157-179). With a
non-empty allow-list: compute arg-max class and max class score as
parallel arrays (modelled as a list of triples), keep rows whose
arg-max class is in the allow-list (`np.isin`), and overwrite column 4
with the class score. Otherwise: keep every row with its arg-max class
and its objectness score unchanged. -/
def classStage (allow : Option (List ℕ)) (cands : List PredRow) : List Cand :=
  match allow with
  | some cs =>
      if 0 < cs.length then
        let annotated := cands.map (fun p => (p, argmaxIdx p.cls, maxScore p.cls))
        let kept := annotated.filter (fun t => cs.contains t.2.1)
        kept.map (fun t => ⟨t.1.cx, t.1.cy, t.1.w, t.1.h, t.2.2, t.2.1⟩)
      else
        cands.map (fun p => ⟨p.cx, p.cy, p.w, p.h, p.obj, argmaxIdx p.cls⟩)
  | none =>
      cands.map (fun p => ⟨p.cx, p.cy, p.w, p.h, p.obj, argmaxIdx p.cls⟩)

/-- A box after xywh-to-xyxy conversion, de-letterboxing and clipping
(still rational, before the `astype(int)`). -/
structure DBox : Type where
  x1 : ℚ
  y1 : ℚ
  x2 : ℚ
  y2 : ℚ
  conf : ℚ
  classId : ℕ
deriving DecidableEq, Repr

/-- Box decode (processing.py lines 181-200): corner-form coordinates
from the center form, minus the letterbox padding, divided by the scale
ratio, clipped to `[0, frame_w]` and `[0, frame_h]` (`np.clip` uses
closed bounds). -/
def decodeCand (r padW padH : ℚ) (fw fh : ℕ) (c : Cand) : DBox :=
  let x1 := qdiv (qsub (qsub c.cx (qdiv c.w 2)) padW) r
  let y1 := qdiv (qsub (qsub c.cy (qdiv c.h 2)) padH) r
  let x2 := qdiv (qsub (qadd c.cx (qdiv c.w 2)) padW) r
  let y2 := qdiv (qsub (qadd c.cy (qdiv c.h 2)) padH) r
  ⟨npClip x1 0 fw, npClip y1 0 fh, npClip x2 0 fw, npClip y2 0 fh,
    c.conf, c.classId⟩

/-- Intersection-over-union of two corner-form boxes (0 when the union
area is 0, via rational division by zero). -/
def iouQ (a b : DBox) : ℚ :=
  let iw := max 0 (qsub (min a.x2 b.x2) (max a.x1 b.x1))
  let ih := max 0 (qsub (min a.y2 b.y2) (max a.y1 b.y1))
  let inter := qmul iw ih
  let areaA := qmul (qsub a.x2 a.x1) (qsub a.y2 a.y1)
  let areaB := qmul (qsub b.x2 b.x1) (qsub b.y2 b.y1)
  qdiv inter (qsub (qadd areaA areaB) inter)

/-- Comparator for descending-confidence order: `confGe a b` when `a`
may come before `b`. -/
def confGe (a b : DBox) : Bool :=
  decide (b.conf ≤ a.conf)

/-- Stable insertion into a descending-confidence list: walk past the
boxes with strictly higher confidence and sit before the first box of
lower-or-equal confidence, so an earlier-processed box stays ahead of
equal-confidence later ones. -/
def insertDesc (b : DBox) : List DBox → List DBox
  | [] => [b]
  | c :: rest =>
      if decide (b.conf < c.conf) then c :: insertDesc b rest
      else b :: c :: rest

/-- Stable sort by descending confidence (insertion sort; structural so
that concrete runs reduce in the kernel). -/
def sortDesc : List DBox → List DBox
  | [] => []
  | b :: rest => insertDesc b (sortDesc rest)

/-- Greedy suppression pass over a worklist already sorted by
descending confidence: keep the head, drop every later box whose IoU
with it exceeds the threshold, recurse. The fuel argument (instantiated
with the list length) only makes the recursion structural. -/
def nmsKeep (t : ℚ) : ℕ → List DBox → List DBox
  | 0, _ => []
  | _ + 1, [] => []
  | fuel + 1, b :: rest =>
      b :: nmsKeep t fuel (rest.filter (fun c => decide (iouQ b c ≤ t)))

/-- Modelled from the spec: `cv2.dnn.NMSBoxes` (the NMS implementation
called at processing.py line 214) is an external library function whose
source is not part of this repository. Per spec section 4.2 step 6 it is
standard greedy NMS by descending confidence with IoU threshold
`nms_threshold`, keeping the first-processed box on equal-confidence
ties (stable order); like `NMSBoxes` it also drops boxes whose score is
not above the score threshold it is given (the code passes the
confidence threshold, already enforced upstream). -/
def nmsRun (t s : ℚ) (l : List DBox) : List DBox :=
  let scored := l.filter (fun c => decide (s < c.conf))
  let sorted := sortDesc scored
  nmsKeep t sorted.length sorted

/-- A final emitted detection: integer bbox (`astype(int)` truncates
toward zero), confidence, class id, nearest flag. -/
structure Detection : Type where
  x1 : ℤ
  y1 : ℤ
  x2 : ℤ
  y2 : ℤ
  conf : ℚ
  classId : ℕ
  isClosest : Bool
deriving DecidableEq, Repr

/-- Detection record built from a decoded box (processing.py lines
236-247), with the nearest flag initialised to false. -/
def mkDetection (d : DBox) : Detection :=
  ⟨pyInt d.x1, pyInt d.y1, pyInt d.x2, pyInt d.y2, d.conf, d.classId, false⟩

/-- Default detection used only as the `getD` fallback (never reached
for valid indices). -/
def dummyDet : Detection :=
  ⟨0, 0, 0, 0, 0, 0, false⟩

/-- Squared Euclidean distance from a detection's box center (Python
floor division `//`) to the frame center. -/
def distSq (cx cy : ℤ) (d : Detection) : ℤ :=
  let bx := Int.fdiv (d.x1 + d.x2) 2
  let bcy := Int.fdiv (d.y1 + d.y2) 2
  (bx - cx) ^ 2 + (bcy - cy) ^ 2

/-- The nearest-target scan (processing.py lines 249-262): walk the
detections left to right carrying the best index and its squared
distance; `none` plays the role of `closest_target_idx = -1` with
`min_dist_sq = inf`, and a strict comparison means the first-seen
detection wins exact ties. -/
def closestAux (cx cy : ℤ) : List Detection → ℕ → Option (ℕ × ℤ) → Option (ℕ × ℤ)
  | [], _, acc => acc
  | d :: rest, i, acc =>
      let ds := distSq cx cy d
      let acc2 := match acc with
        | none => some (i, ds)
        | some (j, m) => if ds < m then some (i, ds) else some (j, m)
      closestAux cx cy rest (i + 1) acc2

/-- Result of the scan started like the source loop: index 0, no best
yet. -/
def closestIdx (cx cy : ℤ) (dets : List Detection) : Option (ℕ × ℤ) :=
  closestAux cx cy dets 0 none

/-- Marking of the winning detection (processing.py lines 264-266): set
its flag in place and return the same record as the closest target. -/
def selectClosest (cx cy : ℤ) (dets : List Detection) :
    List Detection × Option Detection :=
  match closestIdx cx cy dets with
  | none => (dets, none)
  | some (j, _) =>
      let dj := { dets.getD j dummyDet with isClosest := true }
      (dets.set j dj, some dj)

/-- The confidence filter (processing.py line 152): keep rows whose
objectness (column 4) is strictly greater than the threshold. -/
def confFilter (confT : ℚ) (preds : List PredRow) : List PredRow :=
  preds.filter (fun p => decide (confT < p.obj))

/-- The whole postprocessing chain (processing.py lines 144-270):
confidence filter (strict `>`), early return when nothing survives,
class filter (with its own early return, which in the source sits
inside the allow-list branch and can only fire there), box decode,
NMS, detection records, nearest-target selection against the frame
center `(frame_w // 2, frame_h // 2)`. -/
def postprocess (confT nmsT : ℚ) (allow : Option (List ℕ)) (r padW padH : ℚ)
    (fw fh : ℕ) (preds : List PredRow) : List Detection × Option Detection :=
  if (confFilter confT preds).length = 0 then ([], none)
  else if (classStage allow (confFilter confT preds)).length = 0 then ([], none)
  else
    selectClosest ((fw / 2 : ℕ) : ℤ) ((fh / 2 : ℕ) : ℤ)
      ((nmsRun nmsT confT
        ((classStage allow (confFilter confT preds)).map
          (decodeCand r padW padH fw fh))).map mkDetection)

/-- Confidence threshold from config_constants.py (0.4). -/
def CONFIG_CONF_THRESHOLD : ℚ := mkRat 2 5

/-- NMS threshold from config_constants.py (0.5). -/
def CONFIG_NMS_THRESHOLD : ℚ := mkRat 1 2

/-- Class allow-list from config_constants.py. -/
def CONFIG_CLASSES_TO_DETECT : Option (List ℕ) := some [0]

/-! ### Letterbox preprocessing (processing.py, `AIProcessor._preprocess`) -/

/-- Scale ratio `r = min(model_height / img_height, model_width /
img_width)` (processing.py line 121). -/
def letterboxR (fw fh mw mh : ℕ) : ℚ :=
  min (qdiv (mh : ℚ) (fh : ℚ)) (qdiv (mw : ℚ) (fw : ℚ))

/-- Unpadded width `int(round(img_width * r))` (line 122). -/
def newUnpadW (fw fh mw mh : ℕ) : ℤ :=
  pyRound (qmul (fw : ℚ) (letterboxR fw fh mw mh))

/-- Unpadded height `int(round(img_height * r))` (line 122). -/
def newUnpadH (fw fh mw mh : ℕ) : ℤ :=
  pyRound (qmul (fh : ℚ) (letterboxR fw fh mw mh))

/-- Horizontal padding `dw = (model_width - new_unpad_w) / 2`
(line 123). -/
def letterboxPadW (fw fh mw mh : ℕ) : ℚ :=
  qdiv (qsub (mw : ℚ) (newUnpadW fw fh mw mh : ℚ)) 2

/-- Vertical padding `dh = (model_height - new_unpad_h) / 2`
(line 123). -/
def letterboxPadH (fw fh mw mh : ℕ) : ℚ :=
  qdiv (qsub (mh : ℚ) (newUnpadH fw fh mw mh : ℚ)) 2

/-- Forward letterbox mapping of a horizontal frame coordinate into
model-input space: scale by `r`, shift by the padding. -/
def encodeX (fw fh mw mh : ℕ) (x : ℚ) : ℚ :=
  x * letterboxR fw fh mw mh + letterboxPadW fw fh mw mh

/-- Forward letterbox mapping of a vertical frame coordinate. -/
def encodeY (fw fh mw mh : ℕ) (y : ℚ) : ℚ :=
  y * letterboxR fw fh mw mh + letterboxPadH fw fh mw mh

/-- Decoding of a horizontal model-space coordinate exactly as
postprocessing does it: subtract the padding, divide by `r`, clip to
`[0, frame_w]`, truncate to int. -/
def decodeX (fw fh mw mh : ℕ) (xi : ℚ) : ℤ :=
  pyInt (npClip (qdiv (xi - letterboxPadW fw fh mw mh) (letterboxR fw fh mw mh)) 0 (fw : ℚ))

/-- Decoding of a vertical model-space coordinate. -/
def decodeY (fw fh mw mh : ℕ) (eta : ℚ) : ℤ :=
  pyInt (npClip (qdiv (eta - letterboxPadH fw fh mw mh) (letterboxR fw fh mw mh)) 0 (fh : ℚ))

/-! ### One tick of the aim-assist loop (aim_assist.py lines 28-51) -/

/-- Sensitivity gain `AIM_SENSITIVITY = 0.15` (aim_assist.py line 8). -/
def AIM_SENSITIVITY : ℚ := mkRat 3 20

/-- Shared state snapshot read by one aim tick: the enable flag, the
current closest target, and the screen-center coordinates (sentinel -1
when unset). -/
structure AimState : Type where
  aimEnabled : Bool
  target : Option Detection
  centerX : ℤ
  centerY : ℤ
deriving DecidableEq, Repr

/-- The proportional move of one tick: target box center (floor
division) minus screen center, scaled by the gain, truncated toward
zero by Python `int()`. -/
def aimMove (t : Detection) (cx cy : ℤ) : ℤ × ℤ :=
  let tx := Int.fdiv (t.x1 + t.x2) 2
  let ty := Int.fdiv (t.y1 + t.y2) 2
  (pyInt (qmul ((tx - cx : ℤ) : ℚ) AIM_SENSITIVITY),
   pyInt (qmul ((ty - cy : ℤ) : ℚ) AIM_SENSITIVITY))

/-- One tick of `_aim_assist_loop`: the guard is
`aim_enabled and target_to_aim and screen_center_x > 0` (line 35; a
present target record is always truthy), the move is issued only when
one of its components is nonzero (line 50), and the issued pointer
displacement is returned (`none` when no actuation call happens this
tick). -/
def aimTick (s : AimState) : Option (ℤ × ℤ) :=
  if s.aimEnabled then
    match s.target with
    | none => none
    | some t =>
        if 0 < s.centerX then
          let mv := aimMove t s.centerX s.centerY
          if mv.1 ≠ 0 ∨ mv.2 ≠ 0 then some mv else none
        else none
  else none

/-! ### Basic lemmas -/

lemma runStep_false (op : StateOp) : runStep false op = false := by
  cases op with
  | setRunning v => cases v <;> rfl
  | requestShutdown => rfl

lemma runOps_false (ops : List StateOp) : runOps false ops = false := by
  induction ops with
  | nil => rfl
  | cons op rest ih =>
      show runOps (runStep false op) rest = false
      rw [runStep_false]
      exact ih

lemma qdiv_eq_div (a b : ℚ) : qdiv a b = a / b := by
  unfold qdiv
  rw [Rat.divInt_eq_div]
  rcases eq_or_ne b 0 with hb | hb
  · subst hb
    simp
  · have hbn : (b.num : ℚ) ≠ 0 := by exact_mod_cast Rat.num_ne_zero.mpr hb
    have had : ((a.den : ℕ) : ℚ) ≠ 0 := by exact_mod_cast a.den_ne_zero
    conv_rhs => rw [← Rat.num_div_den a, ← Rat.num_div_den b]
    push_cast
    field_simp

lemma qmul_eq_mul (a b : ℚ) : qmul a b = a * b := by
  unfold qmul
  rw [Rat.mkRat_eq_div]
  push_cast
  conv_rhs => rw [← Rat.num_div_den a, ← Rat.num_div_den b]
  rw [div_mul_div_comm]

lemma qadd_eq_add (a b : ℚ) : qadd a b = a + b := by
  unfold qadd
  rw [Rat.mkRat_eq_div]
  push_cast
  conv_rhs => rw [← Rat.num_div_den a, ← Rat.num_div_den b]
  rw [div_add_div _ _ (by exact_mod_cast a.den_ne_zero)
    (by exact_mod_cast b.den_ne_zero)]
  ring_nf

lemma qsub_eq_sub (a b : ℚ) : qsub a b = a - b := by
  unfold qsub
  rw [qadd_eq_add, ← sub_eq_add_neg]

lemma pyInt_of_nonneg (q : ℚ) (h : 0 ≤ q) : pyInt q = ⌊q⌋ := by
  unfold pyInt
  exact if_pos h

lemma npClip_of_mem (v lo hi : ℚ) (h1 : lo ≤ v) (h2 : v ≤ hi) :
    npClip v lo hi = v := by
  unfold npClip
  rw [min_eq_left h2, max_eq_right h1]

lemma npClip_nonneg (v hi : ℚ) : 0 ≤ npClip v 0 hi :=
  le_max_left 0 _

lemma npClip_le_hi (v hi : ℚ) (hhi : 0 ≤ hi) : npClip v 0 hi ≤ hi :=
  max_le hhi (min_le_right v hi)

lemma npClip_mono (v v2 lo hi : ℚ) (h : v ≤ v2) :
    npClip v lo hi ≤ npClip v2 lo hi :=
  max_le_max le_rfl (min_le_min h le_rfl)

/-! ### Theorems for claims C1, C4, C10 -/

/-- C1: pushing an item into a bounded queue that is already at capacity
`cap` evicts the oldest entry and inserts the new one: the result is
exactly the old queue minus its head, with the new item appended, so the
size stays at `cap` (hence at most `cap`), the just-pushed item is
present (it is the last element), and the surviving items are a suffix
of the old queue in unchanged relative order. -/
theorem qPush_full_evicts_oldest {α : Type} (cap : ℕ) (q : List α)
    (item : α) (hcap : 0 < cap) (hfull : q.length = cap) :
    qPush cap q item = q.drop 1 ++ [item] ∧
    (qPush cap q item).length ≤ cap ∧
    item ∈ qPush cap q item ∧
    (qPush cap q item).getLast? = some item ∧
    (q.drop 1).Sublist q := by
  have hnotlt : ¬ q.length < cap := by omega
  have hq : qPush cap q item = q.drop 1 ++ [item] := by
    unfold qPush
    simp [hnotlt]
  refine ⟨hq, ?_, ?_, ?_, List.drop_sublist 1 q⟩
  · rw [hq]
    have hlen : (q.drop 1).length = q.length - 1 := List.length_drop 1 q
    simp only [List.length_append, List.length_singleton, hlen, hfull]
    omega
  · rw [hq]
    simp
  · rw [hq]
    simp

/-- Concrete instance of the C1 theorem: pushing 4 into the full
capacity-2 queue [1, 2] yields [2, 4]. -/
theorem qPush_full_evicts_oldest_witness :
    qPush 2 [1, 2] 4 = [2].append [4] ∧
    (qPush 2 [1, 2] 4).length ≤ 2 ∧
    4 ∈ qPush 2 [1, 2] 4 ∧
    (qPush 2 [1, 2] 4).getLast? = some 4 ∧
    ([1, 2].drop 1).Sublist [1, 2] :=
  qPush_full_evicts_oldest 2 [1, 2] 4 (by decide) (by decide)

/-- C4: the running flag is a shutdown latch. Once the stored flag is
false, every further sequence of operations leaves it false (so
assigning true after shutdown is a no-op); any interleaving of
operations containing at least one `request_shutdown` ends with the flag
false (which gives idempotence, including repeated or interleaved
concurrent calls, since each call holds the lock and thus any
interleaving is a sequence); and assigning false always succeeds. -/
theorem running_flag_latched :
    (∀ ops : List StateOp, runOps false ops = false) ∧
    (∀ (s : Bool) (pre post : List StateOp),
      runOps s (pre ++ StateOp.requestShutdown :: post) = false) ∧
    (∀ s : Bool, runStep s (StateOp.setRunning false) = false) ∧
    (∀ s : Bool, runStep false (StateOp.setRunning true) = false) := by
  refine ⟨runOps_false, ?_, ?_, ?_⟩
  · intro s pre post
    show ((pre ++ StateOp.requestShutdown :: post).foldl runStep s) = false
    rw [List.foldl_append]
    show runOps (runStep (runOps s pre) StateOp.requestShutdown) post = false
    exact runOps_false post
  · intro s
    rfl
  · intro s
    rfl

/-! ### Theorems for claims C2 and C5 -/

lemma letterboxR_pos (fw fh mw mh : ℕ) (hfw : 0 < fw) (hfh : 0 < fh)
    (hmw : 0 < mw) (hmh : 0 < mh) : 0 < letterboxR fw fh mw mh := by
  unfold letterboxR
  rw [qdiv_eq_div, qdiv_eq_div]
  apply lt_min
  · exact div_pos (by exact_mod_cast hmh) (by exact_mod_cast hfh)
  · exact div_pos (by exact_mod_cast hmw) (by exact_mod_cast hfw)

lemma floor_abs_le (x : ℚ) : |((⌊x⌋ : ℤ) : ℚ) - x| ≤ 1 := by
  rw [abs_le]
  constructor
  · have h := Int.sub_one_lt_floor x
    linarith
  · have h := Int.floor_le x
    linarith

/-- C2: letterbox round-trip. For every positive frame size and model
input size, mapping a frame coordinate into model space with the
preprocessing scale `r` and padding `(dw, dh)` and then decoding it as
postprocessing does (subtract the padding, divide by `r`, clip to the
frame, truncate to int) reproduces the original coordinate within one
pixel, on both axes; before the final integer truncation the inverse is
exact. -/
theorem letterbox_roundtrip (fw fh mw mh : ℕ) (x y : ℚ)
    (hfw : 0 < fw) (hfh : 0 < fh) (hmw : 0 < mw) (hmh : 0 < mh)
    (hx0 : 0 ≤ x) (hx1 : x ≤ (fw : ℚ)) (hy0 : 0 ≤ y) (hy1 : y ≤ (fh : ℚ)) :
    |((decodeX fw fh mw mh (encodeX fw fh mw mh x) : ℤ) : ℚ) - x| ≤ 1 ∧
    |((decodeY fw fh mw mh (encodeY fw fh mw mh y) : ℤ) : ℚ) - y| ≤ 1 ∧
    (encodeX fw fh mw mh x - letterboxPadW fw fh mw mh) /
      letterboxR fw fh mw mh = x ∧
    (encodeY fw fh mw mh y - letterboxPadH fw fh mw mh) /
      letterboxR fw fh mw mh = y := by
  have hr := letterboxR_pos fw fh mw mh hfw hfh hmw hmh
  have hrne : letterboxR fw fh mw mh ≠ 0 := ne_of_gt hr
  have hinx : (encodeX fw fh mw mh x - letterboxPadW fw fh mw mh) /
      letterboxR fw fh mw mh = x := by
    unfold encodeX
    rw [add_sub_cancel_right]
    exact mul_div_cancel_right₀ x hrne
  have hiny : (encodeY fw fh mw mh y - letterboxPadH fw fh mw mh) /
      letterboxR fw fh mw mh = y := by
    unfold encodeY
    rw [add_sub_cancel_right]
    exact mul_div_cancel_right₀ y hrne
  refine ⟨?_, ?_, hinx, hiny⟩
  · unfold decodeX
    rw [qdiv_eq_div, hinx, npClip_of_mem x 0 (fw : ℚ) hx0 hx1,
      pyInt_of_nonneg x hx0]
    exact floor_abs_le x
  · unfold decodeY
    rw [qdiv_eq_div, hiny, npClip_of_mem y 0 (fh : ℚ) hy0 hy1,
      pyInt_of_nonneg y hy0]
    exact floor_abs_le y

/-- Concrete instance of the C2 theorem: frame 1920x1080, model input
640x640 (the spec scenario), coordinates (100, 100). -/
theorem letterbox_roundtrip_witness :
    |((decodeX 1920 1080 640 640 (encodeX 1920 1080 640 640 100) : ℤ) : ℚ) - 100| ≤ 1 ∧
    |((decodeY 1920 1080 640 640 (encodeY 1920 1080 640 640 100) : ℤ) : ℚ) - 100| ≤ 1 ∧
    (encodeX 1920 1080 640 640 100 - letterboxPadW 1920 1080 640 640) /
      letterboxR 1920 1080 640 640 = 100 ∧
    (encodeY 1920 1080 640 640 100 - letterboxPadH 1920 1080 640 640) /
      letterboxR 1920 1080 640 640 = 100 :=
  letterbox_roundtrip 1920 1080 640 640 100 100 (by norm_num) (by norm_num)
    (by norm_num) (by norm_num) (by norm_num) (by norm_num) (by norm_num)
    (by norm_num)

/-- C5: the confidence filter keeps exactly the prediction rows whose
objectness (column 4) is strictly greater than the threshold, in their
original order; in particular, with the configured threshold 0.4, an
input whose only candidate has objectness 0.35 yields an empty
detection list and no nearest target from the full postprocessing
chain. -/
theorem confidence_filter_strict (confT : ℚ) (preds : List PredRow) :
    (∀ p : PredRow, p ∈ confFilter confT preds ↔ p ∈ preds ∧ confT < p.obj) ∧
    (confFilter confT preds).Sublist preds ∧
    postprocess CONFIG_CONF_THRESHOLD CONFIG_NMS_THRESHOLD
      CONFIG_CLASSES_TO_DETECT 1 0 0 1920 1080
      [⟨100, 100, 10, 10, mkRat 7 20, [mkRat 9 10]⟩] = ([], none) := by
  refine ⟨?_, List.filter_sublist preds, by decide⟩
  intro p
  unfold confFilter
  rw [List.mem_filter]
  simp only [decide_eq_true_eq]

/-! ### Theorems for claim C6 -/

lemma maxScore_eq_getD_argmaxIdx (l : List ℚ) :
    maxScore l = l.getD (argmaxIdx l) 0 := by
  induction l using maxScore.induct with
  | case1 => rfl
  | case2 a => rfl
  | case3 a b rest ih =>
      show max a (maxScore (b :: rest)) = _
      rw [ih]
      by_cases h : a < (b :: rest).getD (argmaxIdx (b :: rest)) 0
      · have hj : argmaxIdx (a :: b :: rest) = argmaxIdx (b :: rest) + 1 := by
          show (if a < (b :: rest).getD (argmaxIdx (b :: rest)) 0
            then argmaxIdx (b :: rest) + 1 else 0) = _
          rw [if_pos h]
        rw [hj, List.getD_cons_succ]
        exact max_eq_right (le_of_lt h)
      · have hj : argmaxIdx (a :: b :: rest) = 0 := by
          show (if a < (b :: rest).getD (argmaxIdx (b :: rest)) 0
            then argmaxIdx (b :: rest) + 1 else 0) = _
          rw [if_neg h]
        rw [hj, List.getD_cons_zero]
        exact max_eq_left (not_lt.mp h)

/-- C6: with a non-empty class allow-list, the class-filter stage keeps
exactly the candidate rows whose arg-max class is in the allow-list and
overwrites each kept row's confidence with that class's score (the
score at the arg-max index, last conjunct); with no allow-list
configured (`None` or empty), every row is kept with its arg-max class
and its objectness score unchanged. -/
theorem class_filter_allowlist (cs : List ℕ) (cands : List PredRow)
    (hcs : cs ≠ []) :
    classStage (some cs) cands
      = (cands.filter (fun p => cs.contains (argmaxIdx p.cls))).map
          (fun p => (⟨p.cx, p.cy, p.w, p.h, maxScore p.cls,
            argmaxIdx p.cls⟩ : Cand)) ∧
    classStage none cands
      = cands.map (fun p =>
          (⟨p.cx, p.cy, p.w, p.h, p.obj, argmaxIdx p.cls⟩ : Cand)) ∧
    classStage (some []) cands
      = cands.map (fun p =>
          (⟨p.cx, p.cy, p.w, p.h, p.obj, argmaxIdx p.cls⟩ : Cand)) ∧
    (∀ l : List ℚ, maxScore l = l.getD (argmaxIdx l) 0) := by
  refine ⟨?_, rfl, rfl, maxScore_eq_getD_argmaxIdx⟩
  have hpos : 0 < cs.length := List.length_pos.mpr hcs
  simp only [classStage, if_pos hpos, List.filter_map, List.map_map]
  rfl

/-- Instance of the C6 theorem: allow-list [0], one row whose arg-max
class is 0, kept with its class score 0.9 as confidence. -/
theorem class_filter_allowlist_witness :
    classStage (some [0]) [⟨1, 2, 3, 4, mkRat 1 2, [mkRat 9 10]⟩]
      = ([(⟨1, 2, 3, 4, mkRat 1 2, [mkRat 9 10]⟩ : PredRow)].filter
          (fun p => [0].contains (argmaxIdx p.cls))).map
          (fun p => (⟨p.cx, p.cy, p.w, p.h, maxScore p.cls,
            argmaxIdx p.cls⟩ : Cand)) :=
  (class_filter_allowlist [0] [⟨1, 2, 3, 4, mkRat 1 2, [mkRat 9 10]⟩]
    (by decide)).1

/-! ### Theorems for claim C9 -/

lemma mem_insertDesc (b a : DBox) (l : List DBox) :
    a ∈ insertDesc b l ↔ a = b ∨ a ∈ l := by
  induction l with
  | nil => simp [insertDesc]
  | cons c rest ih =>
      unfold insertDesc
      by_cases h : b.conf < c.conf
      · rw [if_pos (by simpa using h), List.mem_cons, ih, List.mem_cons]
        tauto
      · rw [if_neg (by simpa using h), List.mem_cons, List.mem_cons]

lemma mem_sortDesc (a : DBox) (l : List DBox) : a ∈ sortDesc l ↔ a ∈ l := by
  induction l with
  | nil => simp [sortDesc]
  | cons b rest ih =>
      show a ∈ insertDesc b (sortDesc rest) ↔ _
      rw [mem_insertDesc, ih]
      simp

lemma pairwise_insertDesc (b : DBox) (l : List DBox)
    (h : l.Pairwise (fun x y => y.conf ≤ x.conf)) :
    (insertDesc b l).Pairwise (fun x y => y.conf ≤ x.conf) := by
  induction l with
  | nil => simp [insertDesc]
  | cons c rest ih =>
      rw [List.pairwise_cons] at h
      obtain ⟨hc, hrest⟩ := h
      unfold insertDesc
      by_cases hbc : b.conf < c.conf
      · rw [if_pos (by simpa using hbc), List.pairwise_cons]
        refine ⟨?_, ih hrest⟩
        intro a ha
        rcases (mem_insertDesc b a rest).mp ha with rfl | ha
        · exact le_of_lt hbc
        · exact hc a ha
      · rw [if_neg (by simpa using hbc), List.pairwise_cons]
        refine ⟨?_, List.pairwise_cons.mpr ⟨hc, hrest⟩⟩
        intro a ha
        rcases List.mem_cons.mp ha with rfl | ha
        · exact not_lt.mp hbc
        · exact le_trans (hc a ha) (not_lt.mp hbc)

lemma pairwise_sortDesc (l : List DBox) :
    (sortDesc l).Pairwise (fun x y => y.conf ≤ x.conf) := by
  induction l with
  | nil => simp [sortDesc]
  | cons b rest ih => exact pairwise_insertDesc b (sortDesc rest) ih

lemma insertDesc_eq_cons (b : DBox) (l : List DBox)
    (h : ∀ c ∈ l, c.conf ≤ b.conf) : insertDesc b l = b :: l := by
  cases l with
  | nil => rfl
  | cons c rest =>
      unfold insertDesc
      rw [if_neg]
      simp only [decide_eq_true_eq]
      exact not_lt.mpr (h c (List.mem_cons_self c rest))

lemma sortDesc_eq_self (l : List DBox)
    (h : l.Pairwise (fun x y => y.conf ≤ x.conf)) : sortDesc l = l := by
  induction l with
  | nil => rfl
  | cons b rest ih =>
      rw [List.pairwise_cons] at h
      show insertDesc b (sortDesc rest) = b :: rest
      rw [ih h.2, insertDesc_eq_cons b rest h.1]

lemma nmsKeep_subset (t : ℚ) :
    ∀ (fuel : ℕ) (l : List DBox) (a : DBox), a ∈ nmsKeep t fuel l → a ∈ l := by
  intro fuel
  induction fuel with
  | zero =>
      intro l a h
      simp [nmsKeep] at h
  | succ n ih =>
      intro l a h
      cases l with
      | nil => simpa [nmsKeep] using h
      | cons b rest =>
          rcases List.mem_cons.mp h with rfl | h2
          · exact List.mem_cons_self a rest
          · exact List.mem_cons_of_mem b
              (List.mem_of_mem_filter (ih _ a h2))

lemma nmsKeep_pairwise_iou (t : ℚ) :
    ∀ (fuel : ℕ) (l : List DBox),
      (nmsKeep t fuel l).Pairwise (fun a b => iouQ a b ≤ t) := by
  intro fuel
  induction fuel with
  | zero => intro l; simp [nmsKeep]
  | succ n ih =>
      intro l
      cases l with
      | nil => simp [nmsKeep]
      | cons b rest =>
          show (b :: nmsKeep t n _).Pairwise _
          rw [List.pairwise_cons]
          refine ⟨?_, ih _⟩
          intro a ha
          have hmem := nmsKeep_subset t n _ a ha
          have := List.of_mem_filter hmem
          simpa using this

lemma nmsKeep_pairwise_conf (t : ℚ) :
    ∀ (fuel : ℕ) (l : List DBox),
      l.Pairwise (fun x y => y.conf ≤ x.conf) →
      (nmsKeep t fuel l).Pairwise (fun x y => y.conf ≤ x.conf) := by
  intro fuel
  induction fuel with
  | zero => intro l h; simp [nmsKeep]
  | succ n ih =>
      intro l h
      cases l with
      | nil => simp [nmsKeep]
      | cons b rest =>
          rw [List.pairwise_cons] at h
          show (b :: nmsKeep t n _).Pairwise _
          rw [List.pairwise_cons]
          refine ⟨?_, ih _ (List.Pairwise.filter _ h.2)⟩
          intro a ha
          exact h.1 a (List.mem_of_mem_filter (nmsKeep_subset t n _ a ha))

lemma nmsKeep_eq_self (t : ℚ) :
    ∀ (fuel : ℕ) (l : List DBox),
      l.Pairwise (fun a b => iouQ a b ≤ t) → l.length ≤ fuel →
      nmsKeep t fuel l = l := by
  intro fuel
  induction fuel with
  | zero =>
      intro l h hlen
      have : l = [] := List.length_eq_zero.mp (Nat.le_zero.mp hlen)
      subst this
      rfl
  | succ n ih =>
      intro l h hlen
      cases l with
      | nil => rfl
      | cons b rest =>
          rw [List.pairwise_cons] at h
          have hfilter : rest.filter (fun c => decide (iouQ b c ≤ t)) = rest :=
            List.filter_eq_self.mpr (fun a ha => by simpa using h.1 a ha)
          show b :: nmsKeep t n (rest.filter _) = b :: rest
          rw [hfilter, ih rest h.2 (by simpa using Nat.succ_le_succ_iff.mp hlen)]

/-- C9: greedy NMS (descending confidence, IoU threshold `t`, stable
first-processed-wins tie-break, score filter `s`) is idempotent:
running it a second time on its own output with the same thresholds
returns exactly the same list, in the same order; determinism given
identical input is inherent in the embedding being a function. -/
theorem nms_idempotent (t s : ℚ) (l : List DBox) :
    nmsRun t s (nmsRun t s l) = nmsRun t s l := by
  set out := nmsRun t s l with hout
  have hconf : ∀ a ∈ out, s < a.conf := by
    intro a ha
    rw [hout] at ha
    have h1 := nmsKeep_subset t _ _ a ha
    rw [mem_sortDesc] at h1
    have := List.of_mem_filter h1
    simpa using this
  have hfilter : out.filter (fun c => decide (s < c.conf)) = out :=
    List.filter_eq_self.mpr (fun a ha => by simpa using hconf a ha)
  have hpairR : out.Pairwise (fun x y => y.conf ≤ x.conf) := by
    rw [hout]
    exact nmsKeep_pairwise_conf t _ _ (pairwise_sortDesc _)
  have hpairIou : out.Pairwise (fun a b => iouQ a b ≤ t) := by
    rw [hout]
    exact nmsKeep_pairwise_iou t _ _
  show nmsRun t s out = out
  have hdef : nmsRun t s out
      = nmsKeep t
          (sortDesc (out.filter (fun c => decide (s < c.conf)))).length
          (sortDesc (out.filter (fun c => decide (s < c.conf)))) := rfl
  rw [hdef, hfilter, sortDesc_eq_self out hpairR]
  exact nmsKeep_eq_self t out.length out hpairIou le_rfl

/-! ### Theorems for claim C3 -/

lemma closestAux_spec (cx cy : ℤ) :
    ∀ (l : List Detection) (i j : ℕ) (m : ℤ),
      ∃ J M, closestAux cx cy l i (some (j, m)) = some (J, M) ∧
        ((J = j ∧ M = m ∧
            ∀ k, k < l.length → m ≤ distSq cx cy (l.getD k dummyDet)) ∨
         (∃ k, k < l.length ∧ J = i + k ∧
            M = distSq cx cy (l.getD k dummyDet) ∧ M < m ∧
            (∀ k2, k2 < l.length → M ≤ distSq cx cy (l.getD k2 dummyDet)) ∧
            (∀ k2, k2 < k → M < distSq cx cy (l.getD k2 dummyDet)))) := by
  intro l
  induction l with
  | nil =>
      intro i j m
      exact ⟨j, m, rfl, Or.inl ⟨rfl, rfl, by intro k hk; simp at hk⟩⟩
  | cons d rest ih =>
      intro i j m
      by_cases hlt : distSq cx cy d < m
      · have hstep : closestAux cx cy (d :: rest) i (some (j, m))
            = closestAux cx cy rest (i + 1) (some (i, distSq cx cy d)) := by
          show closestAux cx cy rest (i + 1)
              (if distSq cx cy d < m then some (i, distSq cx cy d)
               else some (j, m)) = _
          rw [if_pos hlt]
        obtain ⟨J, M, hres, hcase⟩ := ih (i + 1) i (distSq cx cy d)
        refine ⟨J, M, by rw [hstep]; exact hres, Or.inr ?_⟩
        rcases hcase with ⟨hJ, hM, hmin⟩ | ⟨k, hk, hJ, hM, hMlt, hmin, hfirst⟩
        · refine ⟨0, by simp, by omega, ?_, by omega, ?_, ?_⟩
          · rw [List.getD_cons_zero]
            exact hM
          · intro k2 hk2
            cases k2 with
            | zero =>
                rw [List.getD_cons_zero, hM]
            | succ k3 =>
                rw [List.getD_cons_succ, hM]
                exact hmin k3 (by simp only [List.length_cons] at hk2; omega)
          · intro k2 hk2
            omega
        · refine ⟨k + 1, by simp only [List.length_cons]; omega, by omega, ?_,
            by omega, ?_, ?_⟩
          · rw [List.getD_cons_succ]
            exact hM
          · intro k2 hk2
            cases k2 with
            | zero =>
                rw [List.getD_cons_zero]
                exact le_of_lt hMlt
            | succ k3 =>
                rw [List.getD_cons_succ]
                exact hmin k3 (by simp only [List.length_cons] at hk2; omega)
          · intro k2 hk2
            cases k2 with
            | zero =>
                rw [List.getD_cons_zero]
                exact hMlt
            | succ k3 =>
                rw [List.getD_cons_succ]
                exact hfirst k3 (by omega)
      · have hstep : closestAux cx cy (d :: rest) i (some (j, m))
            = closestAux cx cy rest (i + 1) (some (j, m)) := by
          show closestAux cx cy rest (i + 1)
              (if distSq cx cy d < m then some (i, distSq cx cy d)
               else some (j, m)) = _
          rw [if_neg hlt]
        obtain ⟨J, M, hres, hcase⟩ := ih (i + 1) j m
        refine ⟨J, M, by rw [hstep]; exact hres, ?_⟩
        rcases hcase with ⟨hJ, hM, hmin⟩ | ⟨k, hk, hJ, hM, hMlt, hmin, hfirst⟩
        · refine Or.inl ⟨hJ, hM, ?_⟩
          intro k2 hk2
          cases k2 with
          | zero =>
              rw [List.getD_cons_zero]
              exact not_lt.mp hlt
          | succ k3 =>
              rw [List.getD_cons_succ]
              exact hmin k3 (by simp only [List.length_cons] at hk2; omega)
        · refine Or.inr ⟨k + 1, by simp only [List.length_cons]; omega,
            by omega, ?_, hMlt, ?_, ?_⟩
          · rw [List.getD_cons_succ]
            exact hM
          · intro k2 hk2
            cases k2 with
            | zero =>
                rw [List.getD_cons_zero]
                exact le_of_lt (lt_of_lt_of_le hMlt (not_lt.mp hlt))
            | succ k3 =>
                rw [List.getD_cons_succ]
                exact hmin k3 (by simp only [List.length_cons] at hk2; omega)
          · intro k2 hk2
            cases k2 with
            | zero =>
                rw [List.getD_cons_zero]
                exact lt_of_lt_of_le hMlt (not_lt.mp hlt)
            | succ k3 =>
                rw [List.getD_cons_succ]
                exact hfirst k3 (by omega)

lemma closestIdx_spec (cx cy : ℤ) (d : Detection) (rest : List Detection) :
    ∃ J M, closestIdx cx cy (d :: rest) = some (J, M) ∧
      J < (d :: rest).length ∧
      M = distSq cx cy ((d :: rest).getD J dummyDet) ∧
      (∀ k, k < (d :: rest).length →
        M ≤ distSq cx cy ((d :: rest).getD k dummyDet)) ∧
      (∀ k, k < J → M < distSq cx cy ((d :: rest).getD k dummyDet)) := by
  have hstep : closestIdx cx cy (d :: rest)
      = closestAux cx cy rest 1 (some (0, distSq cx cy d)) := rfl
  obtain ⟨J, M, hres, hcase⟩ := closestAux_spec cx cy rest 1 0 (distSq cx cy d)
  refine ⟨J, M, by rw [hstep]; exact hres, ?_⟩
  rcases hcase with ⟨hJ, hM, hmin⟩ | ⟨k, hk, hJ, hM, hMlt, hmin, hfirst⟩
  · subst hJ
    refine ⟨by simp, by rw [List.getD_cons_zero]; exact hM, ?_, ?_⟩
    · intro k hk2
      cases k with
      | zero =>
          rw [List.getD_cons_zero, hM]
      | succ k3 =>
          rw [List.getD_cons_succ, hM]
          exact hmin k3 (by simp only [List.length_cons] at hk2; omega)
    · intro k hk2
      omega
  · have hJ2 : J = k + 1 := by omega
    subst hJ2
    refine ⟨by simp only [List.length_cons]; omega,
      by rw [List.getD_cons_succ]; exact hM, ?_, ?_⟩
    · intro k2 hk2
      cases k2 with
      | zero =>
          rw [List.getD_cons_zero]
          exact le_of_lt hMlt
      | succ k3 =>
          rw [List.getD_cons_succ]
          exact hmin k3 (by simp only [List.length_cons] at hk2; omega)
    · intro k2 hk2
      cases k2 with
      | zero =>
          rw [List.getD_cons_zero]
          exact hMlt
      | succ k3 =>
          rw [List.getD_cons_succ]
          exact hfirst k3 (by omega)

/-- C3: nearest-target selection. For the empty post-NMS list the
detections are returned unchanged with no nearest record. For every
non-empty list of detections (all flags initially false, as the source
constructs them), there is an index J — the first index attaining the
minimal squared Euclidean distance from the box center to the frame
center, strict inequality against all earlier indices since on exact
ties the first-encountered detection wins — such that exactly the
detection at J is marked `is_closest`, every other detection keeps a
false flag, and the returned nearest record is exactly that marked
detection. -/
theorem nearest_selection (cx cy : ℤ) (dets : List Detection)
    (hflags : ∀ d ∈ dets, d.isClosest = false) :
    (dets = [] → selectClosest cx cy dets = ([], none)) ∧
    (dets ≠ [] → ∃ J, J < dets.length ∧
      (∀ k, k < dets.length →
        distSq cx cy (dets.getD J dummyDet)
          ≤ distSq cx cy (dets.getD k dummyDet)) ∧
      (∀ k, k < J →
        distSq cx cy (dets.getD J dummyDet)
          < distSq cx cy (dets.getD k dummyDet)) ∧
      (selectClosest cx cy dets).1
        = dets.set J { dets.getD J dummyDet with isClosest := true } ∧
      ((selectClosest cx cy dets).1.getD J dummyDet).isClosest = true ∧
      (∀ k, k < dets.length → k ≠ J →
        ((selectClosest cx cy dets).1.getD k dummyDet).isClosest = false) ∧
      (selectClosest cx cy dets).2
        = some { dets.getD J dummyDet with isClosest := true }) := by
  constructor
  · intro h
    subst h
    rfl
  · intro hne
    obtain ⟨d, rest, rfl⟩ := List.exists_cons_of_ne_nil hne
    obtain ⟨J, M, hidx, hJlen, hM, hmin, hfirst⟩ := closestIdx_spec cx cy d rest
    have hfst : (selectClosest cx cy (d :: rest)).1
        = (d :: rest).set J { (d :: rest).getD J dummyDet with isClosest := true } := by
      unfold selectClosest
      rw [hidx]
    have hsnd : (selectClosest cx cy (d :: rest)).2
        = some { (d :: rest).getD J dummyDet with isClosest := true } := by
      unfold selectClosest
      rw [hidx]
    refine ⟨J, hJlen, ?_, ?_, hfst, ?_, ?_, hsnd⟩
    · intro k hk
      rw [← hM]
      exact hmin k hk
    · intro k hk
      rw [← hM]
      exact hfirst k hk
    · rw [hfst]
      have hlen : J < ((d :: rest).set J
          { (d :: rest).getD J dummyDet with isClosest := true }).length := by
        rw [List.length_set]
        exact hJlen
      rw [List.getD_eq_getElem _ _ hlen, List.getElem_set_self hlen]
    · intro k hk hkne
      rw [hfst]
      have hlen : k < ((d :: rest).set J
          { (d :: rest).getD J dummyDet with isClosest := true }).length := by
        rw [List.length_set]
        exact hk
      rw [List.getD_eq_getElem _ _ hlen,
        List.getElem_set_ne (by omega) hlen]
      exact hflags _ (List.getElem_mem hk)

/-- Instance of the C3 theorem on the spec scenario: detections at
distances [50, 10, 30] pixels from the center; the one at distance 10
(index 1) is marked and returned as nearest. -/
theorem nearest_selection_witness :
    (selectClosest 0 0 [⟨50, 0, 50, 0, 1, 0, false⟩, ⟨10, 0, 10, 0, 1, 0, false⟩,
        ⟨30, 0, 30, 0, 1, 0, false⟩]).2
      = some ⟨10, 0, 10, 0, 1, 0, true⟩ ∧
    (selectClosest 0 0 [⟨50, 0, 50, 0, 1, 0, false⟩, ⟨10, 0, 10, 0, 1, 0, false⟩,
        ⟨30, 0, 30, 0, 1, 0, false⟩]).1
      = [⟨50, 0, 50, 0, 1, 0, false⟩, ⟨10, 0, 10, 0, 1, 0, true⟩,
         ⟨30, 0, 30, 0, 1, 0, false⟩] := by
  obtain ⟨J, hJlen, hmin, hfirst, hset, hflag, hothers, hsnd⟩ :=
    (nearest_selection 0 0 [⟨50, 0, 50, 0, 1, 0, false⟩,
      ⟨10, 0, 10, 0, 1, 0, false⟩, ⟨30, 0, 30, 0, 1, 0, false⟩]
      (by decide)).2 (by decide)
  have hJ3 : J < 3 := by simpa using hJlen
  have hJ : J = 1 := by
    interval_cases J
    · exact absurd (hmin 1 (by decide)) (by decide)
    · rfl
    · exact absurd (hfirst 1 (by decide)) (by decide)
  subst hJ
  constructor
  · rw [hsnd]
    decide
  · rw [hset]
    decide

/-! ### Theorems for claim C7 -/

lemma decodeCand_bounds (r padW padH : ℚ) (fw fh : ℕ) (c : Cand)
    (hr : 0 < r) (hw : 0 ≤ c.w) (hh : 0 ≤ c.h) :
    0 ≤ (decodeCand r padW padH fw fh c).x1 ∧
    (decodeCand r padW padH fw fh c).x1 ≤ (decodeCand r padW padH fw fh c).x2 ∧
    (decodeCand r padW padH fw fh c).x2 ≤ (fw : ℚ) ∧
    0 ≤ (decodeCand r padW padH fw fh c).y1 ∧
    (decodeCand r padW padH fw fh c).y1 ≤ (decodeCand r padW padH fw fh c).y2 ∧
    (decodeCand r padW padH fw fh c).y2 ≤ (fh : ℚ) := by
  have hfw : (0:ℚ) ≤ (fw : ℚ) := Nat.cast_nonneg fw
  have hfh : (0:ℚ) ≤ (fh : ℚ) := Nat.cast_nonneg fh
  have hw2 : 0 ≤ c.w / 2 := by positivity
  have hh2 : 0 ≤ c.h / 2 := by positivity
  simp only [decodeCand, qdiv_eq_div, qsub_eq_sub, qadd_eq_add]
  refine ⟨npClip_nonneg _ _, ?_, npClip_le_hi _ _ hfw,
    npClip_nonneg _ _, ?_, npClip_le_hi _ _ hfh⟩
  · apply npClip_mono
    apply div_le_div_of_nonneg_right _ (le_of_lt hr)
    linarith
  · apply npClip_mono
    apply div_le_div_of_nonneg_right _ (le_of_lt hr)
    linarith

lemma classStage_mem_wh (allow : Option (List ℕ)) (cands : List PredRow) :
    ∀ c ∈ classStage allow cands, ∃ p ∈ cands, c.w = p.w ∧ c.h = p.h := by
  intro c hc
  cases allow with
  | none =>
      obtain ⟨p, hp, rfl⟩ := List.mem_map.mp hc
      exact ⟨p, hp, rfl, rfl⟩
  | some cs =>
      by_cases hpos : 0 < cs.length
      · rw [show classStage (some cs) cands
            = ((cands.map (fun p => (p, argmaxIdx p.cls, maxScore p.cls))).filter
                (fun t => cs.contains t.2.1)).map
                (fun t => (⟨t.1.cx, t.1.cy, t.1.w, t.1.h, t.2.2, t.2.1⟩ : Cand))
          from by simp only [classStage, if_pos hpos]] at hc
        obtain ⟨t, ht, rfl⟩ := List.mem_map.mp hc
        have ht2 := List.mem_of_mem_filter ht
        obtain ⟨p, hp, rfl⟩ := List.mem_map.mp ht2
        exact ⟨p, hp, rfl, rfl⟩
      · rw [show classStage (some cs) cands
            = cands.map (fun p => (⟨p.cx, p.cy, p.w, p.h, p.obj, argmaxIdx p.cls⟩ : Cand))
          from by simp only [classStage, if_neg hpos]] at hc
        obtain ⟨p, hp, rfl⟩ := List.mem_map.mp hc
        exact ⟨p, hp, rfl, rfl⟩

lemma nmsRun_subset (t s : ℚ) (l : List DBox) :
    ∀ a ∈ nmsRun t s l, a ∈ l := by
  intro a ha
  have h1 := nmsKeep_subset t _ _ a ha
  rw [mem_sortDesc] at h1
  exact List.mem_of_mem_filter h1

lemma mkDetection_bounds (b : DBox) (fw fh : ℕ)
    (h1 : 0 ≤ b.x1) (h2 : b.x1 ≤ b.x2) (h3 : b.x2 ≤ (fw : ℚ))
    (h4 : 0 ≤ b.y1) (h5 : b.y1 ≤ b.y2) (h6 : b.y2 ≤ (fh : ℚ)) :
    0 ≤ (mkDetection b).x1 ∧ (mkDetection b).x1 ≤ (mkDetection b).x2 ∧
    (mkDetection b).x2 ≤ (fw : ℤ) ∧
    0 ≤ (mkDetection b).y1 ∧ (mkDetection b).y1 ≤ (mkDetection b).y2 ∧
    (mkDetection b).y2 ≤ (fh : ℤ) := by
  have hx2 : 0 ≤ b.x2 := le_trans h1 h2
  have hy2 : 0 ≤ b.y2 := le_trans h4 h5
  simp only [mkDetection, pyInt_of_nonneg _ h1, pyInt_of_nonneg _ h4,
    pyInt_of_nonneg _ hx2, pyInt_of_nonneg _ hy2]
  refine ⟨?_, Int.floor_le_floor h2, ?_, ?_, Int.floor_le_floor h5, ?_⟩
  · exact_mod_cast Int.le_floor.mpr (by exact_mod_cast h1)
  · have := Int.floor_le_floor h3
    rwa [Int.floor_natCast] at this
  · exact_mod_cast Int.le_floor.mpr (by exact_mod_cast h4)
  · have := Int.floor_le_floor h6
    rwa [Int.floor_natCast] at this

lemma closestAux_idx_lt (cx cy : ℤ) :
    ∀ (l : List Detection) (i : ℕ) (acc : Option (ℕ × ℤ)),
      (∀ j m, acc = some (j, m) → j < i) →
      ∀ j m, closestAux cx cy l i acc = some (j, m) → j < i + l.length := by
  intro l
  induction l with
  | nil =>
      intro i acc hacc j m h
      simp only [closestAux] at h
      simpa using hacc j m h
  | cons d rest ih =>
      intro i acc hacc j m h
      simp only [List.length_cons]
      cases acc with
      | none =>
          have h2 : closestAux cx cy rest (i + 1)
              (some (i, distSq cx cy d)) = some (j, m) := h
          have hlt := ih (i + 1) (some (i, distSq cx cy d)) (by
            intro j2 m2 he
            simp only [Option.some.injEq, Prod.mk.injEq] at he
            omega) j m h2
          omega
      | some jm =>
          obtain ⟨j0, m0⟩ := jm
          have h2 : closestAux cx cy rest (i + 1)
              (if distSq cx cy d < m0 then some (i, distSq cx cy d)
               else some (j0, m0)) = some (j, m) := h
          by_cases hcmp : distSq cx cy d < m0
          · rw [if_pos hcmp] at h2
            have hlt := ih (i + 1) (some (i, distSq cx cy d)) (by
              intro j2 m2 he
              simp only [Option.some.injEq, Prod.mk.injEq] at he
              omega) j m h2
            omega
          · rw [if_neg hcmp] at h2
            have hj0 := hacc j0 m0 rfl
            have hlt := ih (i + 1) (some (j0, m0)) (by
              intro j2 m2 he
              simp only [Option.some.injEq, Prod.mk.injEq] at he
              omega) j m h2
            omega

lemma closestIdx_lt_length (cx cy : ℤ) (dets : List Detection) (j : ℕ) (m : ℤ)
    (h : closestIdx cx cy dets = some (j, m)) : j < dets.length := by
  have := closestAux_idx_lt cx cy dets 0 none (by intro j2 m2 he; cases he) j m h
  simpa using this

lemma selectClosest_mem_bbox (cx cy : ℤ) (dets : List Detection) :
    ∀ d ∈ (selectClosest cx cy dets).1, ∃ d0 ∈ dets,
      d.x1 = d0.x1 ∧ d.y1 = d0.y1 ∧ d.x2 = d0.x2 ∧ d.y2 = d0.y2 := by
  intro d hd
  unfold selectClosest at hd
  cases hidx : closestIdx cx cy dets with
  | none =>
      rw [hidx] at hd
      exact ⟨d, hd, rfl, rfl, rfl, rfl⟩
  | some jm =>
      obtain ⟨j, m⟩ := jm
      rw [hidx] at hd
      simp only at hd
      rcases List.mem_or_eq_of_mem_set hd with h | h
      · exact ⟨d, h, rfl, rfl, rfl, rfl⟩
      · have hj := closestIdx_lt_length cx cy dets j m hidx
        have hmem : dets.getD j dummyDet ∈ dets := by
          rw [List.getD_eq_getElem dets dummyDet hj]
          exact List.getElem_mem hj
        subst h
        exact ⟨dets.getD j dummyDet, hmem, rfl, rfl, rfl, rfl⟩

/-- C7 (amended): every detection emitted by postprocessing — under a
positive scale ratio and prediction rows with nonnegative width and
height, as real model outputs have — satisfies `x1 ≤ x2`, `y1 ≤ y2`,
with all four coordinates in the closed ranges `[0, frame_w]` and
`[0, frame_h]`: `np.clip` clips inclusively, so a coordinate can equal
`frame_w` or `frame_h` and the claimed half-open ranges do not hold
(see the counterexample). -/
theorem detection_bounds (confT nmsT : ℚ) (allow : Option (List ℕ))
    (r padW padH : ℚ) (fw fh : ℕ) (preds : List PredRow)
    (hr : 0 < r) (hpred : ∀ p ∈ preds, 0 ≤ p.w ∧ 0 ≤ p.h) :
    ∀ d ∈ (postprocess confT nmsT allow r padW padH fw fh preds).1,
      0 ≤ d.x1 ∧ d.x1 ≤ d.x2 ∧ d.x2 ≤ (fw : ℤ) ∧
      0 ≤ d.y1 ∧ d.y1 ≤ d.y2 ∧ d.y2 ≤ (fh : ℤ) := by
  intro d hd
  unfold postprocess at hd
  by_cases h1 : (confFilter confT preds).length = 0
  · rw [if_pos h1] at hd
    simp at hd
  · rw [if_neg h1] at hd
    by_cases h2 : (classStage allow (confFilter confT preds)).length = 0
    · rw [if_pos h2] at hd
      simp at hd
    · rw [if_neg h2] at hd
      obtain ⟨d0, hd0, hx1, hy1, hx2, hy2⟩ :=
        selectClosest_mem_bbox _ _ _ d hd
      rw [hx1, hy1, hx2, hy2]
      obtain ⟨b, hb, rfl⟩ := List.mem_map.mp hd0
      have hbmem := nmsRun_subset _ _ _ b hb
      obtain ⟨c, hc, rfl⟩ := List.mem_map.mp hbmem
      obtain ⟨p, hp, hw, hh⟩ := classStage_mem_wh allow _ c hc
      have hpmem : p ∈ preds := List.mem_of_mem_filter hp
      have hcw : 0 ≤ c.w := by
        rw [hw]
        exact (hpred p hpmem).1
      have hch : 0 ≤ c.h := by
        rw [hh]
        exact (hpred p hpmem).2
      obtain ⟨b1, b2, b3, b4, b5, b6⟩ :=
        decodeCand_bounds r padW padH fw fh c hr hcw hch
      exact mkDetection_bounds _ fw fh b1 b2 b3 b4 b5 b6

/-- Instance of the C7 theorem at the counterexample input: the single
emitted detection (634, 315, 640, 325) satisfies the closed-range
bounds. -/
theorem detection_bounds_witness :
    0 ≤ (⟨634, 315, 640, 325, mkRat 9 10, 0, true⟩ : Detection).x1 ∧
    (⟨634, 315, 640, 325, mkRat 9 10, 0, true⟩ : Detection).x1
      ≤ (⟨634, 315, 640, 325, mkRat 9 10, 0, true⟩ : Detection).x2 ∧
    (⟨634, 315, 640, 325, mkRat 9 10, 0, true⟩ : Detection).x2 ≤ ((640 : ℕ) : ℤ) ∧
    0 ≤ (⟨634, 315, 640, 325, mkRat 9 10, 0, true⟩ : Detection).y1 ∧
    (⟨634, 315, 640, 325, mkRat 9 10, 0, true⟩ : Detection).y1
      ≤ (⟨634, 315, 640, 325, mkRat 9 10, 0, true⟩ : Detection).y2 ∧
    (⟨634, 315, 640, 325, mkRat 9 10, 0, true⟩ : Detection).y2 ≤ ((640 : ℕ) : ℤ) :=
  detection_bounds CONFIG_CONF_THRESHOLD CONFIG_NMS_THRESHOLD (some [0])
    1 0 0 640 640 [⟨639, 320, 10, 10, mkRat 9 10, [mkRat 9 10]⟩]
    (by decide) (by decide) ⟨634, 315, 640, 325, mkRat 9 10, 0, true⟩ (by decide)

/-- C7 counterexample: frame 640x640 with model input 640x640 gives
scale 1 and zero padding (first three conjuncts tie these to the
preprocessing formulas); a row centered at x = 639 with width 10
decodes, clips and truncates to the detection (634, 315, 640, 325),
whose x2 equals frame_w = 640 — outside the claimed half-open range
`[0, frame_w)`. -/
theorem detection_coords_closed_range_cex :
    letterboxR 640 640 640 640 = 1 ∧
    letterboxPadW 640 640 640 640 = 0 ∧
    letterboxPadH 640 640 640 640 = 0 ∧
    (postprocess CONFIG_CONF_THRESHOLD CONFIG_NMS_THRESHOLD (some [0])
        1 0 0 640 640 [⟨639, 320, 10, 10, mkRat 9 10, [mkRat 9 10]⟩]).1
      = [⟨634, 315, 640, 325, mkRat 9 10, 0, true⟩] ∧
    ¬ ((⟨634, 315, 640, 325, mkRat 9 10, 0, true⟩ : Detection).x2 < 640) :=
  ⟨by decide, by decide, by decide, by decide, by decide⟩

/-! ### Theorems for claim C8 -/

/-- C8 counterexample: the aim loop guard checks only
`screen_center_x > 0`, never the y coordinate, so in a state whose
screen-center y is still the unset sentinel -1 (aim enabled, target at
box (0,0,100,100), center x 100) a pointer displacement is issued —
`(-7, 7)`, computed with the sentinel as the actual center y — even
though the claim says nothing is done while the center is
uninitialized. -/
theorem aimTick_moves_with_unset_center_y :
    (⟨true, some ⟨0, 0, 100, 100, 1, 0, true⟩, 100, -1⟩ : AimState).centerY = -1 ∧
    aimTick ⟨true, some ⟨0, 0, 100, 100, 1, 0, true⟩, 100, -1⟩ = some (-7, 7) :=
  ⟨rfl, by decide⟩

/-- C8 (amended): one aim tick issues a pointer displacement iff the
aim flag is on, a nearest target exists, `center_x` is positive (the
code does not check `center_y`), and the truncated move is nonzero;
the issued displacement is `(int(dx * sens), int(dy * sens))` with the
delta taken from the target box center to the (possibly y-unset)
screen center and `int` truncating toward zero; with the aim flag off,
or no target, or non-positive `center_x`, no call is issued. -/
theorem aimTick_guard :
    (∀ s : AimState, s.aimEnabled = false → aimTick s = none) ∧
    (∀ s : AimState, s.target = none → aimTick s = none) ∧
    (∀ s : AimState, s.centerX ≤ 0 → aimTick s = none) ∧
    (∀ (s : AimState) (t : Detection), s.aimEnabled = true →
      s.target = some t → 0 < s.centerX →
      aimTick s = (if (aimMove t s.centerX s.centerY).1 ≠ 0 ∨
          (aimMove t s.centerX s.centerY).2 ≠ 0
        then some (aimMove t s.centerX s.centerY) else none)) ∧
    (∀ (t : Detection) (cx cy : ℤ),
      aimMove t cx cy =
        (pyInt (((Int.fdiv (t.x1 + t.x2) 2 - cx : ℤ) : ℚ) * AIM_SENSITIVITY),
         pyInt (((Int.fdiv (t.y1 + t.y2) 2 - cy : ℤ) : ℚ) * AIM_SENSITIVITY))) := by
  refine ⟨?_, ?_, ?_, ?_, ?_⟩
  · intro s h
    simp [aimTick, h]
  · intro s h
    simp [aimTick, h]
  · intro s h
    have hnot : ¬ 0 < s.centerX := not_lt.mpr h
    cases ht : s.target <;> simp [aimTick, ht, hnot]
  · intro s t he ht hc
    simp [aimTick, he, ht, hc]
  · intro t cx cy
    simp [aimMove, qmul_eq_mul]

/-- Instance of the C8 theorem: with the aim flag off no displacement
is issued. -/
theorem aimTick_guard_witness :
    aimTick ⟨false, none, -1, -1⟩ = none :=
  aimTick_guard.1 ⟨false, none, -1, -1⟩ rfl

/-- C10: the `program_running` setter ignores every truthy assignment,
not only those made after a shutdown: for every stored flag `s` and
assigned value `v`, the new stored flag is `s && v`, so the flag changes
only when a falsy value is assigned (then it becomes false), a truthy
assignment leaves the flag exactly as it was, and the setter can never
produce a true flag from a false one: the flag is true only from
construction. -/
theorem running_setter_ignores_truthy :
    (∀ (s v : Bool), runStep s (StateOp.setRunning v) = (s && v)) ∧
    (∀ s : Bool, runStep s (StateOp.setRunning true) = s) ∧
    (∀ s : Bool, runStep s (StateOp.setRunning false) = false) ∧
    (∀ v : Bool, runStep false (StateOp.setRunning v) = false) := by
  refine ⟨?_, ?_, ?_, ?_⟩
  · intro s v
    cases s <;> cases v <;> rfl
  · intro s
    cases s <;> rfl
  · intro s
    rfl
  · intro v
    cases v <;> rfl
